import Mathlib

/-!
Shallow embedding of the connect4solver repository (pos.py, sorter.py,
transposition.py, solver.py) over `Nat` bitboards, together with proofs
checking the specification's claims against it.

Python arbitrary-precision integers are embedded as `Nat` (all bitboard
values in the program are nonnegative and fit in `WIDTH * (HEIGHT + 1) = 49`
bits); Python floor division `//` is embedded as `Int.fdiv`.
-/

namespace C4

/-- `Position.WIDTH` (pos.py line 26). -/
def WIDTH : Nat := 7

/-- `Position.HEIGHT` (pos.py line 27). -/
def HEIGHT : Nat := 6

/-- `bottom(width, height)` (pos.py): recursive bitmask with a 1 at the
bottom cell of each column. -/
def bottom : Nat → Nat → Nat
  | 0, _ => 0
  | w + 1, h => bottom w h ||| (1 <<< (w * (h + 1)))

/-- `Position.bottom_mask` static bitmap. -/
def bottom_all : Nat := bottom WIDTH HEIGHT

/-- `Position.board_mask = bottom_mask * ((1 << HEIGHT) - 1)`. -/
def board_mask : Nat := bottom_all * ((1 <<< HEIGHT) - 1)

/-- The `Position` class: stones of the player to move, occupied cells,
and number of moves played. -/
structure Position where
  current_position : Nat
  mask : Nat
  moves : Nat
deriving DecidableEq, Repr

/-- `Position.__init__`: the empty board. -/
def Position.init : Position := ⟨0, 0, 0⟩

/-- `Position.top_mask(col)`. -/
def top_mask (col : Nat) : Nat := (1 <<< (HEIGHT - 1)) <<< (col * (HEIGHT + 1))

/-- `Position.bottom_mask_col(col)`. -/
def bottom_mask_col (col : Nat) : Nat := 1 <<< (col * (HEIGHT + 1))

/-- `Position.column_mask(col)`. -/
def column_mask (col : Nat) : Nat := ((1 <<< HEIGHT) - 1) <<< (col * (HEIGHT + 1))

/-- `Position.alignment(pos)`: 4-in-a-row test by shift windows. -/
def alignment (pos : Nat) : Bool :=
  let m1 := pos &&& (pos >>> (HEIGHT + 1))
  if m1 &&& (m1 >>> (2 * (HEIGHT + 1))) ≠ 0 then true
  else
    let m2 := pos &&& (pos >>> HEIGHT)
    if m2 &&& (m2 >>> (2 * HEIGHT)) ≠ 0 then true
    else
      let m3 := pos &&& (pos >>> (HEIGHT + 2))
      if m3 &&& (m3 >>> (2 * (HEIGHT + 2))) ≠ 0 then true
      else
        let m4 := pos &&& (pos >>> 1)
        decide (m4 &&& (m4 >>> 2) ≠ 0)

/-- `Position.compute_winning_position(position, mask)` (pos.py lines 102-138),
with the sequence of `|=` and `>>=` updates written as successive lets. -/
def compute_winning_position (position mask : Nat) : Nat :=
  let v0 := (position <<< 1) &&& (position <<< 2) &&& (position <<< 3)
  let h1 := (position <<< (HEIGHT + 1)) &&& (position <<< (2 * (HEIGHT + 1)))
  let v1 := v0 ||| (h1 &&& (position <<< (3 * (HEIGHT + 1))))
  let v2 := v1 ||| (h1 &&& (position >>> (HEIGHT + 1)))
  let h2 := h1 >>> (3 * (HEIGHT + 1))
  let v3 := v2 ||| (h2 &&& (position <<< (HEIGHT + 1)))
  let v4 := v3 ||| (h2 &&& (position >>> (3 * (HEIGHT + 1))))
  let d1 := (position <<< HEIGHT) &&& (position <<< (2 * HEIGHT))
  let v5 := v4 ||| (d1 &&& (position <<< (3 * HEIGHT)))
  let v6 := v5 ||| (d1 &&& (position >>> HEIGHT))
  let d2 := d1 >>> (3 * HEIGHT)
  let v7 := v6 ||| (d2 &&& (position <<< HEIGHT))
  let v8 := v7 ||| (d2 &&& (position >>> (3 * HEIGHT)))
  let e1 := (position <<< (HEIGHT + 2)) &&& (position <<< (2 * (HEIGHT + 2)))
  let v9 := v8 ||| (e1 &&& (position <<< (3 * (HEIGHT + 2))))
  let v10 := v9 ||| (e1 &&& (position >>> (HEIGHT + 2)))
  let e2 := e1 >>> (3 * (HEIGHT + 2))
  let v11 := v10 ||| (e2 &&& (position <<< (HEIGHT + 2)))
  let v12 := v11 ||| (e2 &&& (position >>> (3 * (HEIGHT + 2))))
  v12 &&& (board_mask ^^^ mask)

/-- Loop body of `Position.popcount`, with explicit fuel; the loop variable
strictly decreases, so fuel `m` suffices for input `m`. -/
def popcount_go : Nat → Nat → Nat
  | 0, _ => 0
  | f + 1, m => if m = 0 then 0 else popcount_go f (m &&& (m - 1)) + 1

/-- `Position.popcount(m)`: count of set bits via repeated `m &= m - 1`. -/
def popcount (m : Nat) : Nat := popcount_go m m

/-- `Position.key()`: `current_position + mask` (integer addition). -/
def Position.key (p : Position) : Nat := p.current_position + p.mask

/-- `Position.can_play(col)`. -/
def Position.can_play (p : Position) (col : Nat) : Bool :=
  p.mask &&& top_mask col == 0

/-- `Position.play_bit(move)`: flip perspective, then set the move bit. -/
def Position.play_bit (p : Position) (move : Nat) : Position :=
  ⟨p.current_position ^^^ p.mask, p.mask ||| move, p.moves + 1⟩

/-- `Position.play(col)`. -/
def Position.play (p : Position) (col : Nat) : Position :=
  p.play_bit ((p.mask + bottom_mask_col col) &&& column_mask col)

/-- `Position.possible()`. -/
def Position.possible (p : Position) : Nat := (p.mask + bottom_all) &&& board_mask

/-- `Position.opponent_winning_position()`. -/
def Position.opponent_winning_position (p : Position) : Nat :=
  compute_winning_position (p.current_position ^^^ p.mask) p.mask

/-- `Position.winning_position()`. -/
def Position.winning_position (p : Position) : Nat :=
  compute_winning_position p.current_position p.mask

/-- `Position.can_win_next()`: the code returns the (truthy) bitmask
`winning_position() & possible()`. -/
def Position.can_win_next (p : Position) : Nat :=
  p.winning_position &&& p.possible

/-- `Position.is_winning(col)`: the code returns the (truthy) bitmask
`winning_position() & possible() & bottom_mask_col(col)`. -/
def Position.is_winning (p : Position) (col : Nat) : Nat :=
  p.winning_position &&& p.possible &&& bottom_mask_col col

/-- Python `~b` restricted to the 49 board-plus-sentinel bits: every value
`a` that is and-ed against `~b` in the program satisfies `a < 2 ^ 49`, so
`a & ~b = a &&& compl49 b`. -/
def compl49 (b : Nat) : Nat := (2 ^ 49 - 1) ^^^ (b &&& (2 ^ 49 - 1))

/-- `Position.possible_non_losing()` (pos.py lines 243-261). -/
def Position.possible_non_losing (p : Position) : Nat :=
  let possible_mask := p.possible
  let oppo_win := p.opponent_winning_position
  let forced_moves := possible_mask &&& oppo_win
  if forced_moves ≠ 0 ∧ forced_moves &&& (forced_moves - 1) ≠ 0 then 0
  else
    (if forced_moves ≠ 0 then forced_moves else possible_mask) &&& compl49 (oppo_win >>> 1)

/-- `Position.score_move(move)`. -/
def Position.score_move (p : Position) (move : Nat) : Nat :=
  popcount (compute_winning_position (p.current_position ||| move) p.mask)

/-- Loop body of `Position.play_seq`: `i` is the count of moves applied so
far; processing stops at the first invalid token. -/
def play_seq_go : Position → List Char → Nat → Nat × Position
  | p, [], n => (n, p)
  | p, ch :: rest, n =>
    let col : Int := (ch.toNat : Int) - ('1'.toNat : Int)
    if col < 0 ∨ (WIDTH : Int) ≤ col ∨ p.can_play col.toNat = false ∨
        p.is_winning col.toNat ≠ 0 then (n, p)
    else play_seq_go (p.play col.toNat) rest (n + 1)

/-- `Position.play_seq(seq)`: returns the number of moves actually applied
together with the resulting position (the Python method mutates `self` and
returns the count). -/
def play_seq (p : Position) (seq : List Char) : Nat × Position :=
  play_seq_go p seq 0

/-! ## sorter.py -/

/-- `MoveSorter.Entry`. -/
structure SorterEntry where
  move : Nat
  score : Nat
deriving DecidableEq, Repr

/-- Default `MoveSorter.Entry()`. -/
def SorterEntry.default : SorterEntry := ⟨0, 0⟩

/-- `MoveSorter`: fixed array of `WIDTH` entries plus a fill count. -/
structure MoveSorter where
  size : Nat
  entries : List SorterEntry
deriving DecidableEq, Repr

/-- `MoveSorter.__init__`. -/
def MoveSorter.init : MoveSorter := ⟨0, List.replicate WIDTH SorterEntry.default⟩

/-- The `while` loop of `MoveSorter.add`: shift greater-scored entries one
slot up, returning the updated array and the insertion index. -/
def sorter_shift : Nat → List SorterEntry → Nat → List SorterEntry × Nat
  | 0, es, _ => (es, 0)
  | pos + 1, es, score =>
    let prev := es.getD pos SorterEntry.default
    if score < prev.score then sorter_shift pos (es.set (pos + 1) prev) score
    else (es, pos + 1)

/-- `MoveSorter.add(move, score)`. -/
def MoveSorter.add (s : MoveSorter) (move : Nat) (score : Nat) : MoveSorter :=
  let r := sorter_shift s.size s.entries score
  ⟨s.size + 1, r.1.set r.2 ⟨move, score⟩⟩

/-- `MoveSorter.get_next()`: pop the highest-scored remaining move, or 0. -/
def MoveSorter.get_next (s : MoveSorter) : Nat × MoveSorter :=
  if s.size ≠ 0 then
    ((s.entries.getD (s.size - 1) SorterEntry.default).move, ⟨s.size - 1, s.entries⟩)
  else (0, s)

/-! ## transposition.py -/

/-- `Table.Entry`: default key 0, value 0, upper-bound flag set. -/
structure TableEntry where
  key : Nat
  val : Int
  is_up : Bool
deriving DecidableEq, Repr

/-- `Table.Entry.__init__`. -/
def TableEntry.default : TableEntry := ⟨0, 0, true⟩

/-- `Table`: the backing array `T` of `size` buckets is modelled as a
function from bucket index to entry. -/
structure Table where
  size : Nat
  T : Nat → TableEntry

/-- `Table.__init__(size)`: all buckets hold the default entry. -/
def Table.init (size : Nat) : Table := ⟨size, fun _ => TableEntry.default⟩

/-- `Table.index(key)`. -/
def Table.index (t : Table) (key : Nat) : Nat := key % t.size

/-- `Table.reset()`. -/
def Table.reset (t : Table) : Table := ⟨t.size, fun _ => TableEntry.default⟩

/-- `Table.put(key, val, is_up)`: unconditional overwrite of the bucket. -/
def Table.put (t : Table) (key : Nat) (val : Int) (is_up : Bool) : Table :=
  ⟨t.size, fun i => if i = t.index key then ⟨key, val, is_up⟩ else t.T i⟩

/-- `Table.get(key)`: the bucket entry if its stored key matches, else
`none` (Python `None`). -/
def Table.get (t : Table) (key : Nat) : Option TableEntry :=
  let e := t.T (t.index key)
  if e.key = key then some e else none

/-! ## solver.py -/

/-- `Solver.column_order[i] = int(WIDTH // 2 + (1 - 2 * (i % 2)) * (i + 1) // 2)`
with Python floor division. -/
def column_order (i : Nat) : Nat :=
  (Int.fdiv (WIDTH : Int) 2 +
    Int.fdiv ((1 - 2 * ((i : Int) % 2)) * ((i : Int) + 1)) 2).toNat

/-- The mutable state of `Solver`: node counter and transposition table. -/
structure Solver where
  node_count : Nat
  trans_table : Table

/-- `Solver.__init__`. -/
def Solver.start : Solver := ⟨0, Table.init 8388593⟩

/-- Drain a `MoveSorter` into the list of successive `get_next` results
(`size` pops; afterwards `get_next` only yields 0). -/
def sorter_drain_go : Nat → MoveSorter → List Nat
  | 0, _ => []
  | n + 1, s =>
    let r := s.get_next
    r.1 :: sorter_drain_go n r.2

/-- The successive `get_next` values consumed by the negamax move loop. -/
def MoveSorter.drain (s : MoveSorter) : List Nat := sorter_drain_go s.size s

/-- The `while tobe_move != 0` loop of `Solver.negamax`, over the drained
move list; `rec` is the recursive call on child positions. The loop exits
(storing an upper bound) when the sorter runs out, i.e. `get_next` yields 0. -/
def negamax_loop (rec : Position → Int → Int → Solver → Int × Solver) :
    List Nat → Position → Int → Int → Solver → Int × Solver
  | [], p, alpha, _, st =>
    (alpha, { st with trans_table := st.trans_table.put p.key alpha true })
  | move :: rest, p, alpha, beta, st =>
    if move = 0 then
      (alpha, { st with trans_table := st.trans_table.put p.key alpha true })
    else
      let r := rec (p.play_bit move) (-beta) (-alpha) st
      let score := -r.1
      if beta ≤ score then
        (score, { r.2 with trans_table := r.2.trans_table.put p.key score false })
      else if alpha < score then negamax_loop rec rest p score beta r.2
      else negamax_loop rec rest p alpha beta r.2

/-- `Solver.negamax(p, alpha, beta)` (solver.py lines 56-131), embedded with
an explicit recursion fuel; each recursive call increases `p.moves` and the
recursion stops at `WIDTH * HEIGHT - 2` moves, so fuel 43 is always enough.
The two asserts (`alpha < beta`, not `can_win_next`) are preconditions. -/
def negamax : Nat → Position → Int → Int → Solver → Int × Solver
  | 0, _, _, _, st => (0, st)
  | fuel + 1, p, alpha, beta, st =>
    let st := { st with node_count := st.node_count + 1 }
    let next_move := p.possible_non_losing
    if next_move = 0 then
      (Int.fdiv (-((WIDTH * HEIGHT : Nat) - (p.moves : Int))) 2, st)
    else if WIDTH * HEIGHT - 2 ≤ p.moves then
      (0, st)
    else
      let en := st.trans_table.get p.key
      let min_score : Int :=
        match en with
        | some e =>
          if e.is_up then Int.fdiv (-((WIDTH * HEIGHT : Nat) - 2 - (p.moves : Int))) 2
          else e.val
        | none => Int.fdiv (-((WIDTH * HEIGHT : Nat) - 2 - (p.moves : Int))) 2
      let after_min : Int → Int × Solver := fun alpha =>
        let max_score : Int :=
          match en with
          | some e =>
            if e.is_up then e.val
            else Int.fdiv ((WIDTH * HEIGHT : Nat) - 1 - (p.moves : Int)) 2
          | none => Int.fdiv ((WIDTH * HEIGHT : Nat) - 1 - (p.moves : Int)) 2
        let after_max : Int → Int × Solver := fun beta =>
          let sorter := (List.range WIDTH).reverse.foldl
            (fun s i =>
              let move := next_move &&& column_mask (column_order i)
              if move ≠ 0 then s.add move (p.score_move move) else s)
            MoveSorter.init
          negamax_loop (negamax fuel) sorter.drain p alpha beta st
        if max_score < beta then
          if max_score ≤ alpha then (max_score, st) else after_max max_score
        else after_max beta
      if alpha < min_score then
        if beta ≤ min_score then (min_score, st) else after_min min_score
      else after_min alpha

/-- The `while min_score < max_score` loop of `Solver.solve`, with fuel;
the window shrinks every iteration, so fuel 100 is always enough. -/
def solve_loop : Nat → Position → Int → Int → Solver → Int × Solver
  | 0, _, min_score, _, st => (min_score, st)
  | fuel + 1, p, min_score, max_score, st =>
    if min_score < max_score then
      let med0 := min_score + Int.fdiv (max_score - min_score) 2
      let med :=
        if 0 ≥ med0 ∧ med0 > Int.fdiv min_score 2 then Int.fdiv min_score 2
        else if 0 ≤ med0 ∧ med0 < Int.fdiv max_score 2 then Int.fdiv max_score 2
        else med0
      let r := negamax 43 p med (med + 1) st
      if r.1 ≤ med then solve_loop fuel p min_score r.1 r.2
      else solve_loop fuel p r.1 max_score r.2
    else (min_score, st)

/-- `Solver.solve(p)`: null-window driver. -/
def solve (p : Position) (st : Solver) : Int × Solver :=
  if p.can_win_next ≠ 0 then
    (Int.fdiv ((WIDTH * HEIGHT : Nat) + 1 - (p.moves : Int)) 2, st)
  else
    solve_loop 100 p (Int.fdiv (-((WIDTH * HEIGHT : Nat) - (p.moves : Int))) 2)
      (Int.fdiv ((WIDTH * HEIGHT : Nat) + 1 - (p.moves : Int)) 2) st

/-! ## Spec-side auxiliary definitions -/

/-- Apply a list of 0-indexed columns to the empty board with `play`. -/
def apply_moves (l : List Nat) : Position := l.foldl Position.play Position.init

/-- Number of set bits of a board value (all board values are `< 2 ^ 49`). -/
def bitcount (n : Nat) : Nat := (List.range 49).countP fun i => n.testBit i

/-- Positions reachable from the empty board by legal `play` calls. -/
inductive Reachable : Position → Prop where
  | empty : Reachable Position.init
  | step {p : Position} {col : Nat} : Reachable p → col < WIDTH →
      p.can_play col = true → Reachable (p.play col)

/-- Positions reachable from the empty board by legal `play` calls and by
`play_bit` calls on a single free cell bit of a column. -/
inductive ReachableB : Position → Prop where
  | empty : ReachableB Position.init
  | step_play {p : Position} {col : Nat} : ReachableB p → col < WIDTH →
      p.can_play col = true → ReachableB (p.play col)
  | step_play_bit {p : Position} {c r : Nat} : ReachableB p → c < WIDTH → r < HEIGHT →
      p.mask.testBit (c * (HEIGHT + 1) + r) = false →
      ReachableB (p.play_bit (1 <<< (c * (HEIGHT + 1) + r)))

/-- A value has at least two distinct set bits (board values have all their
bits below 49, so the bounded search keeps this decidable). -/
def more_than_one_bit (n : Nat) : Bool :=
  (List.range 49).any fun i => (List.range 49).any fun j =>
    (i != j) && n.testBit i && n.testBit j

/-- The candidate mask described by the specification for
`possible_non_losing`: empty when the threat set has more than one bit, the
single threat cell when it has exactly one, all playable cells otherwise. -/
def candidate_spec (p : Position) : Nat :=
  let threats := p.possible &&& p.opponent_winning_position
  if more_than_one_bit threats then 0
  else if threats ≠ 0 then threats
  else p.possible

/-- Value of a list of base-128 digits (one 7-bit field per column, least
significant column first); the bitboard layout packs column `c` at bits
`[7c, 7c+7)`. -/
def encode : List Nat → Nat
  | [] => 0
  | d :: l => d + 128 * encode l

/-- Board position after playing columns `[0,1,0,1,0,1]`: the player to
move owns three stones stacked at rows 0-2 of column 0, so playing
column 0 again wins vertically at row 3. -/
def pos_stack : Position := apply_moves [0, 1, 0, 1, 0, 1]

/-- Position where the opponent has exactly one immediately playable
winning cell `(3,0)` and a second winning cell `(3,1)` directly above it. -/
def pos_single_threat : Position := apply_moves [5, 0, 6, 0, 0, 1, 0, 1, 1, 2, 6, 2]

/-- Position with no immediately playable opponent threat, but with an
opponent winning cell `(2,2)` directly above the playable cell `(2,1)`. -/
def pos_under_threat : Position := apply_moves [1, 3, 3, 0, 3, 1, 2, 3]

/-- Position where the opponent threatens to win at both `(0,0)` and
`(4,0)`, both immediately playable. -/
def pos_double_threat : Position := apply_moves [5, 1, 5, 2, 6, 3]

/-- Five moves added to a fresh sorter with scores 3, 1, 4, 1, 5, in that
insertion order. -/
def sorter_test (m1 m2 m3 m4 m5 : Nat) : MoveSorter :=
  ((((MoveSorter.init.add m1 3).add m2 1).add m3 4).add m4 1).add m5 5

/-! ## Generic bit-level lemmas -/

theorem testBit_add_mul_two_pow (k a b i : Nat) (ha : a < 2 ^ k) :
    (a + 2 ^ k * b).testBit i = if i < k then a.testBit i else b.testBit (i - k) := by
  split
  case isTrue h =>
    have h1 : (a + 2 ^ k * b) % 2 ^ k = a := by
      rw [Nat.add_mul_mod_self_left, Nat.mod_eq_of_lt ha]
    have h2 := Nat.testBit_mod_two_pow (a + 2 ^ k * b) k i
    rw [h1] at h2
    rw [h2]
    simp [h]
  case isFalse h =>
    have h2 : (a + 2 ^ k * b) >>> k = b := by
      rw [Nat.shiftRight_eq_div_pow, Nat.add_mul_div_left _ _ (Nat.pos_pow_of_pos k (by norm_num)),
        Nat.div_eq_of_lt ha, Nat.zero_add]
    have h3 := Nat.testBit_shiftRight (a + 2 ^ k * b) (i := k) (j := i - k)
    rw [h2, Nat.add_sub_cancel' (Nat.le_of_not_lt h)] at h3
    rw [← h3]

theorem split_lor (k a b c d : Nat) (ha : a < 2 ^ k) (hc : c < 2 ^ k) :
    (a + 2 ^ k * b) ||| (c + 2 ^ k * d) = (a ||| c) + 2 ^ k * (b ||| d) := by
  apply Nat.eq_of_testBit_eq
  intro i
  rw [Nat.testBit_lor, testBit_add_mul_two_pow k a b i ha,
    testBit_add_mul_two_pow k c d i hc,
    testBit_add_mul_two_pow k _ _ i (Nat.or_lt_two_pow ha hc), Nat.testBit_lor]
  by_cases h : i < k <;> simp [h, Nat.testBit_lor]

theorem split_xor (k a b c d : Nat) (ha : a < 2 ^ k) (hc : c < 2 ^ k) :
    (a + 2 ^ k * b) ^^^ (c + 2 ^ k * d) = (a ^^^ c) + 2 ^ k * (b ^^^ d) := by
  apply Nat.eq_of_testBit_eq
  intro i
  rw [Nat.testBit_xor, testBit_add_mul_two_pow k a b i ha,
    testBit_add_mul_two_pow k c d i hc,
    testBit_add_mul_two_pow k _ _ i (Nat.xor_lt_two_pow ha hc), Nat.testBit_xor]
  by_cases h : i < k <;> simp [h, Nat.testBit_xor]

theorem and_two_pow_sub_one (x n : Nat) : x &&& (2 ^ n - 1) = x % 2 ^ n := by
  apply Nat.eq_of_testBit_eq
  intro i
  rw [Nat.testBit_land, Nat.testBit_two_pow_sub_one, Nat.testBit_mod_two_pow]
  exact Bool.and_comm _ _

theorem and_shift_mask (x m s : Nat) : x &&& (m <<< s) = ((x >>> s) &&& m) <<< s := by
  apply Nat.eq_of_testBit_eq
  intro i
  rw [Nat.testBit_land, Nat.testBit_shiftLeft, Nat.testBit_shiftLeft]
  by_cases h : s ≤ i
  · have : s + (i - s) = i := by omega
    simp [h, Nat.testBit_land, Nat.testBit_shiftRight, this]
  · simp [h]

theorem and_two_pow_eq_zero_iff (x t : Nat) : x &&& 2 ^ t = 0 ↔ x.testBit t = false := by
  rw [Nat.and_two_pow]
  cases h : x.testBit t <;> simp [h]

theorem even_lor_one (q : Nat) (h : q % 2 = 0) : q ||| 1 = q + 1 := by
  have hq : q = 0 + 2 ^ 1 * (q / 2) := by omega
  have h1 : (0 + 2 ^ 1 * (q / 2)) ||| (1 + 2 ^ 1 * 0) = (0 ||| 1) + 2 ^ 1 * (q / 2 ||| 0) := by
    exact split_lor 1 _ _ _ _ (by norm_num) (by norm_num)
  rw [← hq] at h1
  simp only [Nat.mul_zero, Nat.add_zero, Nat.zero_or, Nat.or_zero] at h1
  rw [h1]
  omega

theorem lor_two_pow_of_testBit_false {x t : Nat} (h : x.testBit t = false) :
    x ||| 2 ^ t = x + 2 ^ t := by
  have hp : 0 < (2 : Nat) ^ t := Nat.pos_pow_of_pos t (by norm_num)
  have hmod : x % 2 ^ t < 2 ^ t := Nat.mod_lt _ hp
  have hdm := Nat.div_add_mod x (2 ^ t)
  have heven : (x / 2 ^ t) % 2 = 0 := by
    have h0 : x.testBit t = decide (x / 2 ^ t % 2 = 1) := Nat.testBit_to_div_mod
    rw [h] at h0
    have h1 : ¬ (x / 2 ^ t % 2 = 1) := of_decide_eq_false h0.symm
    omega
  calc x ||| 2 ^ t
      = (x % 2 ^ t + 2 ^ t * (x / 2 ^ t)) ||| (0 + 2 ^ t * 1) := by
        rw [Nat.zero_add, Nat.mul_one]
        congr 1
        omega
    _ = (x % 2 ^ t ||| 0) + 2 ^ t * ((x / 2 ^ t) ||| 1) := split_lor t _ _ _ _ hmod hp
    _ = x % 2 ^ t + 2 ^ t * ((x / 2 ^ t) + 1) := by
        rw [Nat.or_zero, even_lor_one _ heven]
    _ = x + 2 ^ t := by
        rw [Nat.mul_add, Nat.mul_one]
        omega

theorem sub_one_div_two_pow {x j : Nat} (h : x % 2 ^ j ≠ 0) :
    (x - 1) / 2 ^ j = x / 2 ^ j := by
  have hp : 0 < (2 : Nat) ^ j := Nat.pos_pow_of_pos j (by norm_num)
  have hd := Nat.div_add_mod x (2 ^ j)
  have hx1 : x - 1 = (x % 2 ^ j - 1) + 2 ^ j * (x / 2 ^ j) := by omega
  rw [hx1, Nat.add_mul_div_left _ _ hp,
    Nat.div_eq_of_lt (by have := Nat.mod_lt x hp; omega), Nat.zero_add]

theorem testBit_sub_one_high {x j : Nat} (h : x % 2 ^ j ≠ 0) :
    (x - 1).testBit j = x.testBit j := by
  rw [Nat.testBit_to_div_mod, Nat.testBit_to_div_mod, sub_one_div_two_pow h]

theorem mod_two_pow_ne_zero_of_testBit {x i j : Nat} (hij : i < j)
    (h : x.testBit i = true) : x % 2 ^ j ≠ 0 := by
  intro h0
  have := Nat.testBit_mod_two_pow x j i
  rw [h0, Nat.zero_testBit] at this
  simp [hij, h] at this

theorem testBit_lt_of_lt {x i n : Nat} (hx : x < 2 ^ n) (h : x.testBit i = true) :
    i < n := by
  by_contra hc
  have : x < 2 ^ i := lt_of_lt_of_le hx (Nat.pow_le_pow_right (by norm_num) (by omega))
  rw [Nat.testBit_lt_two_pow this] at h
  exact Bool.false_ne_true h

theorem ne_zero_of_testBit {x i : Nat} (h : x.testBit i = true) : x ≠ 0 := by
  intro h0
  rw [h0, Nat.zero_testBit] at h
  exact Bool.false_ne_true h

theorem land_pred_ne_zero_of_lt {x i j : Nat} (hij : i < j)
    (hi : x.testBit i = true) (hj : x.testBit j = true) : x &&& (x - 1) ≠ 0 := by
  apply ne_zero_of_testBit (i := j)
  rw [Nat.testBit_land, hj, testBit_sub_one_high (mod_two_pow_ne_zero_of_testBit hij hi), hj]
  rfl

theorem land_pred_ne_zero_of_two_bits {x i j : Nat} (hij : i ≠ j)
    (hi : x.testBit i = true) (hj : x.testBit j = true) : x &&& (x - 1) ≠ 0 := by
  rcases Nat.lt_or_ge i j with h | h
  · exact land_pred_ne_zero_of_lt h hi hj
  · exact land_pred_ne_zero_of_lt (by omega) hj hi

theorem exists_lowbit {x : Nat} (hx : x ≠ 0) :
    ∃ i, x.testBit i = true ∧ ∀ j, j < i → x.testBit j = false := by
  induction x using Nat.strong_induction_on with
  | _ x ih =>
    by_cases hodd : x % 2 = 1
    · exact ⟨0, by rw [Nat.testBit_zero]; simp [hodd], fun j hj => by omega⟩
    · have hx2 : x / 2 ≠ 0 := by omega
      obtain ⟨i, hi, hlow⟩ := ih (x / 2) (by omega) hx2
      refine ⟨i + 1, by rw [Nat.testBit_succ]; exact hi, fun j hj => ?_⟩
      match j with
      | 0 => rw [Nat.testBit_zero]; simp [hodd]
      | j + 1 => rw [Nat.testBit_succ]; exact hlow j (by omega)

theorem testBit_pred_lowbit {x i : Nat} (hi : x.testBit i = true)
    (hlow : ∀ j, j < i → x.testBit j = false) : (x - 1).testBit i = false := by
  have hmod : x % 2 ^ (i + 1) = 2 ^ i := by
    apply Nat.eq_of_testBit_eq
    intro j
    rw [Nat.testBit_mod_two_pow, Nat.testBit_two_pow]
    rcases Nat.lt_trichotomy j i with h | h | h
    · have h1 : i ≠ j := by omega
      simp [hlow j h, h1]
    · subst h
      simp [hi]
    · have h1 : ¬ (j < i + 1) := by omega
      have h2 : i ≠ j := by omega
      simp [h1, h2]
  have hp : 0 < (2 : Nat) ^ i := Nat.pos_pow_of_pos i (by norm_num)
  have hd := Nat.div_add_mod x (2 ^ (i + 1))
  have hmul : (2 : Nat) ^ (i + 1) * (x / 2 ^ (i + 1)) =
      2 ^ i * (2 * (x / 2 ^ (i + 1))) := by
    rw [Nat.pow_succ]
    ring
  have hx1 : x - 1 = (2 ^ i - 1) + 2 ^ i * (2 * (x / 2 ^ (i + 1))) := by
    rw [← hmul]
    omega
  rw [Nat.testBit_to_div_mod, hx1, Nat.add_mul_div_left _ _ hp,
    Nat.div_eq_of_lt (by omega), Nat.zero_add]
  simp [Nat.mul_mod_right]

theorem two_bits_of_land_pred_ne_zero {x : Nat} (h : x &&& (x - 1) ≠ 0) :
    ∃ i j, i ≠ j ∧ x.testBit i = true ∧ x.testBit j = true := by
  have hx : x ≠ 0 := by
    intro h0
    rw [h0] at h
    simp [Nat.zero_and] at h
  obtain ⟨i, hi, hlow⟩ := exists_lowbit hx
  obtain ⟨j, hj, _⟩ := exists_lowbit h
  rw [Nat.testBit_land] at hj
  have hj1 : x.testBit j = true := by
    cases h1 : x.testBit j
    · rw [h1] at hj; simp at hj
    · rfl
  have hj2 : (x - 1).testBit j = true := by
    cases h2 : (x - 1).testBit j
    · rw [h2] at hj; simp at hj
    · rfl
  refine ⟨i, j, fun hij => ?_, hi, hj1⟩
  subst hij
  rw [testBit_pred_lowbit hi hlow] at hj2
  exact Bool.false_ne_true hj2

theorem two_pow_land_pred (k : Nat) : (2 ^ k) &&& (2 ^ k - 1) = 0 := by
  apply Nat.eq_of_testBit_eq
  intro i
  rw [Nat.testBit_land, Nat.testBit_two_pow, Nat.testBit_two_pow_sub_one, Nat.zero_testBit]
  by_cases h : k = i <;> simp [h]

theorem two_pow_and_compl49 {k : Nat} (hk : k < 49) (x : Nat) :
    2 ^ k &&& compl49 x = if x.testBit k then 0 else 2 ^ k := by
  apply Nat.eq_of_testBit_eq
  intro i
  rw [Nat.testBit_land, Nat.testBit_two_pow]
  unfold compl49
  rw [Nat.testBit_xor, Nat.testBit_two_pow_sub_one, Nat.testBit_land,
    Nat.testBit_two_pow_sub_one]
  by_cases h : k = i
  · subst h
    cases hx : x.testBit k <;> simp [hx, hk, Nat.testBit_two_pow, Nat.zero_testBit]
  · cases hx : x.testBit k <;> simp [h, Nat.testBit_two_pow, Nat.zero_testBit]

/-! ## Bit-counting lemmas -/

theorem countP_or_single {l : List Nat} {p : Nat → Bool} {t : Nat}
    (hmem : t ∈ l) (hnd : l.Nodup) (hpt : p t = false) :
    l.countP (fun x => p x || decide (t = x)) = l.countP p + 1 := by
  induction l with
  | nil => cases hmem
  | cons a l ih =>
    rw [List.countP_cons, List.countP_cons]
    rcases List.mem_cons.mp hmem with rfl | hmem'
    · have hnotin : t ∉ l := (List.nodup_cons.mp hnd).1
      have heq : l.countP (fun x => p x || decide (t = x)) = l.countP p := by
        apply List.countP_congr
        intro x hx
        have hne : t ≠ x := fun h => hnotin (h ▸ hx)
        simp [hne]
      rw [heq]
      simp [hpt]
    · have hnd' := (List.nodup_cons.mp hnd).2
      rw [ih hmem' hnd']
      have hta : t ≠ a := by
        intro h
        exact (List.nodup_cons.mp hnd).1 (h ▸ hmem')
      simp [hta]
      omega

theorem bitcount_lor_two_pow {m t : Nat} (ht : t < 49) (h : m.testBit t = false) :
    bitcount (m ||| 2 ^ t) = bitcount m + 1 := by
  unfold bitcount
  have hcongr : ∀ x ∈ List.range 49,
      ((m ||| 2 ^ t).testBit x = true ↔ (m.testBit x || decide (t = x)) = true) := by
    intro x _
    rw [Nat.testBit_lor, Nat.testBit_two_pow]
  rw [List.countP_congr hcongr]
  exact countP_or_single (List.mem_range.mpr ht) (List.nodup_range 49) h

/-! ## Column-arithmetic lemmas for `play` -/

theorem top_mask_eq (col : Nat) : top_mask col = 2 ^ (col * 7 + 5) := by
  unfold top_mask HEIGHT
  rw [Nat.shiftLeft_eq, Nat.shiftLeft_eq, Nat.one_mul, ← Nat.pow_add, Nat.add_comm]

theorem bottom_mask_col_eq (col : Nat) : bottom_mask_col col = 2 ^ (col * 7) := by
  unfold bottom_mask_col HEIGHT
  rw [Nat.shiftLeft_eq, Nat.one_mul]

theorem column_mask_eq (col : Nat) : column_mask col = 63 <<< (col * 7) := by
  unfold column_mask HEIGHT
  norm_num [Nat.shiftLeft_eq]

theorem testBit_shifted_digit (m s b : Nat) (hb : b < 7) :
    ((m >>> s) % 128).testBit b = m.testBit (s + b) := by
  have h1 : (128 : Nat) = 2 ^ 7 := by norm_num
  rw [h1, Nat.testBit_mod_two_pow, Nat.testBit_shiftRight]
  simp [hb]

/-- The per-column digit of a board value whose sentinel and top bits are
clear is below 32. -/
theorem digit_lt_32 {m s : Nat} (h5 : m.testBit (s + 5) = false)
    (h6 : m.testBit (s + 6) = false) : (m >>> s) % 128 < 32 := by
  have h128 : (m >>> s) % 128 < 128 := Nat.mod_lt _ (by norm_num)
  have : (32 : Nat) = 2 ^ 5 := by norm_num
  rw [this]
  apply Nat.lt_pow_two_of_testBit
  intro i hi
  rcases Nat.lt_or_ge i 7 with h7 | h7
  · interval_cases i
    · rw [testBit_shifted_digit m s 5 (by norm_num)]
      exact h5
    · rw [testBit_shifted_digit m s 6 (by norm_num)]
      exact h6
  · apply Nat.testBit_lt_two_pow
    calc (m >>> s) % 128 < 128 := h128
      _ ≤ 2 ^ i := by
        have : (128 : Nat) = 2 ^ 7 := by norm_num
        rw [this]
        exact Nat.pow_le_pow_right (by norm_num) h7

/-- The move bit computed by `play`: adding the column's bottom bit to the
mask and truncating to the column yields the incremented digit. -/
theorem play_move_eq (m col : Nat) (h5 : m.testBit (col * 7 + 5) = false)
    (h6 : m.testBit (col * 7 + 6) = false) :
    (m + bottom_mask_col col) &&& column_mask col
      = 2 ^ (col * 7) * ((m >>> (col * 7)) % 128 + 1) := by
  have hd32 : (m >>> (col * 7)) % 128 < 32 := digit_lt_32 h5 h6
  rw [bottom_mask_col_eq, column_mask_eq, and_shift_mask]
  have h1 : (m + 2 ^ (col * 7)) >>> (col * 7) = m >>> (col * 7) + 1 := by
    rw [Nat.shiftRight_eq_div_pow, Nat.shiftRight_eq_div_pow,
      Nat.add_div_right _ (Nat.pos_pow_of_pos _ (by norm_num))]
  rw [h1]
  have h63 : (63 : Nat) = 2 ^ 6 - 1 := by norm_num
  rw [h63, and_two_pow_sub_one]
  have hdm := Nat.div_add_mod (m >>> (col * 7)) 128
  have h2 : m >>> (col * 7) + 1
      = ((m >>> (col * 7)) % 128 + 1) + 2 ^ 6 * (2 * ((m >>> (col * 7)) / 128)) := by
    omega
  rw [h2, Nat.add_mul_mod_self_left,
    Nat.mod_eq_of_lt (by omega), Nat.shiftLeft_eq, Nat.mul_comm]

/-- Any value below 32 has a zero bit `t < 6` such that or-ing with the
incremented value is the same as or-ing with `2 ^ t` alone. -/
theorem lowzero_fact {d : Nat} (hd : d < 32) :
    ∃ t, t < 6 ∧ d.testBit t = false ∧ (d ||| (d + 1)) = (d ||| 2 ^ t) := by
  have h : ((List.range 32).all fun d => (List.range 6).any fun t =>
      (!d.testBit t) && (d ||| (d + 1) == d ||| 2 ^ t)) = true := by decide
  rw [List.all_eq_true] at h
  have h2 := h d (List.mem_range.mpr hd)
  rw [List.any_eq_true] at h2
  obtain ⟨t, ht, hp⟩ := h2
  rw [Bool.and_eq_true, Bool.not_eq_true', beq_iff_eq] at hp
  exact ⟨t, List.mem_range.mp ht, hp.1, hp.2⟩

theorem lor_mul_pow (s m x : Nat) :
    m ||| (2 ^ s * x) = m % 2 ^ s + 2 ^ s * ((m >>> s) ||| x) := by
  have hmod : m % 2 ^ s < 2 ^ s := Nat.mod_lt _ (Nat.pos_pow_of_pos _ (by norm_num))
  have hdm := Nat.div_add_mod m (2 ^ s)
  calc m ||| (2 ^ s * x)
      = (m % 2 ^ s + 2 ^ s * (m >>> s)) ||| (0 + 2 ^ s * x) := by
        rw [Nat.zero_add, Nat.shiftRight_eq_div_pow]
        congr 1
        omega
    _ = (m % 2 ^ s ||| 0) + 2 ^ s * ((m >>> s) ||| x) :=
        split_lor s _ _ _ _ hmod (Nat.pos_pow_of_pos _ (by norm_num))
    _ = m % 2 ^ s + 2 ^ s * ((m >>> s) ||| x) := by rw [Nat.or_zero]

theorem lor_digit7 {r x y : Nat} (hx : x < 128) (hy : y < 128)
    (h : (r % 128) ||| x = (r % 128) ||| y) : r ||| x = r ||| y := by
  have h128 : (128 : Nat) = 2 ^ 7 := by norm_num
  have hdm := Nat.div_add_mod r 128
  have hr : r = r % 128 + 2 ^ 7 * (r / 128) := by omega
  have hx7 : x = x + 2 ^ 7 * 0 := by omega
  have hy7 : y = y + 2 ^ 7 * 0 := by omega
  rw [hr]
  conv_lhs => rw [hx7]
  conv_rhs => rw [hy7]
  rw [split_lor 7 _ _ _ _ (by omega) (by omega),
    split_lor 7 _ _ _ _ (by omega) (by omega), h]

/-- The mask after a legal `play col` is the old mask with a single fresh
column bit set: the lowest zero bit `t` of the column's digit. -/
theorem play_mask_lor (m col : Nat) (h5 : m.testBit (col * 7 + 5) = false)
    (h6 : m.testBit (col * 7 + 6) = false) :
    ∃ t, t < 6 ∧ m.testBit (col * 7 + t) = false ∧
      m ||| ((m + bottom_mask_col col) &&& column_mask col)
        = m ||| 2 ^ (col * 7 + t) := by
  have hd32 : (m >>> (col * 7)) % 128 < 32 := digit_lt_32 h5 h6
  obtain ⟨t, ht, htb, hlor⟩ := lowzero_fact hd32
  refine ⟨t, ht, ?_, ?_⟩
  · rw [← testBit_shifted_digit m (col * 7) t (by omega)]
    exact htb
  · rw [play_move_eq m col h5 h6, lor_mul_pow, Nat.pow_add,
      lor_mul_pow (col * 7) m (2 ^ t)]
    have h2t : (2 : Nat) ^ t ≤ 2 ^ 5 := Nat.pow_le_pow_right (by norm_num) (by omega)
    congr 1
    congr 1
    exact lor_digit7 (by omega) (by omega) hlor

/-! ## The board-state invariant (claim C9) -/

theorem board_bit_true {c t : Nat} (hc : c < 7) (ht : t < 6) :
    board_mask.testBit (c * 7 + t) = true := by
  have h : ((List.range 7).all fun c => (List.range 6).all fun t =>
      board_mask.testBit (c * 7 + t)) = true := by decide
  rw [List.all_eq_true] at h
  have h2 := h c (List.mem_range.mpr hc)
  rw [List.all_eq_true] at h2
  exact h2 t (List.mem_range.mpr ht)

theorem board_sentinel_false {c : Nat} (hc : c < 7) :
    board_mask.testBit (c * 7 + 6) = false := by
  have h : ((List.range 7).all fun c => !board_mask.testBit (c * 7 + 6)) = true := by
    decide
  rw [List.all_eq_true] at h
  have h2 := h c (List.mem_range.mpr hc)
  rwa [Bool.not_eq_true'] at h2

theorem can_play_bit5 {p : Position} {col : Nat} (hcan : p.can_play col = true) :
    p.mask.testBit (col * 7 + 5) = false := by
  rw [Position.can_play, beq_iff_eq, top_mask_eq] at hcan
  exact (and_two_pow_eq_zero_iff _ _).mp hcan

theorem reachableB_inv {p : Position} (h : ReachableB p) :
    (∀ i, p.current_position.testBit i = true → p.mask.testBit i = true) ∧
    (∀ i, p.mask.testBit i = true → board_mask.testBit i = true) ∧
    p.moves = bitcount p.mask := by
  induction h with
  | empty =>
    refine ⟨?_, ?_, ?_⟩
    · intro i hi
      rw [Position.init] at hi
      simp [Nat.zero_testBit] at hi
    · intro i hi
      rw [Position.init] at hi
      simp [Nat.zero_testBit] at hi
    · decide
  | @step_play p col h hcol hcan ih =>
    obtain ⟨hsub, hboard, hmoves⟩ := ih
    have hcol7 : col < 7 := hcol
    have h5 : p.mask.testBit (col * 7 + 5) = false := can_play_bit5 hcan
    have h6 : p.mask.testBit (col * 7 + 6) = false := by
      cases hmb : p.mask.testBit (col * 7 + 6)
      · rfl
      · have := hboard _ hmb
        rw [board_sentinel_false (by omega)] at this
        exact this.symm
    obtain ⟨t, ht, hfresh, hlor⟩ := play_mask_lor p.mask col h5 h6
    have hplay_cur : (p.play col).current_position = p.current_position ^^^ p.mask := rfl
    have hplay_mask : (p.play col).mask
        = p.mask ||| ((p.mask + bottom_mask_col col) &&& column_mask col) := rfl
    have hplay_moves : (p.play col).moves = p.moves + 1 := rfl
    have hmask2 : (p.play col).mask = p.mask ||| 2 ^ (col * 7 + t) := by
      rw [hplay_mask, hlor]
    refine ⟨?_, ?_, ?_⟩
    · intro i hi
      rw [hplay_cur, Nat.testBit_xor] at hi
      rw [hmask2, Nat.testBit_lor]
      cases hc : p.current_position.testBit i
      · rw [hc] at hi
        simp at hi
        simp [hi]
      · simp [hsub i hc]
    · intro i hi
      rw [hmask2, Nat.testBit_lor] at hi
      simp only [Bool.or_eq_true] at hi
      rcases hi with h1 | h1
      · exact hboard i h1
      · rw [Nat.testBit_two_pow] at h1
        have : col * 7 + t = i := of_decide_eq_true h1
        rw [← this]
        exact board_bit_true (by omega) ht
    · rw [hplay_moves, hmask2, hmoves,
        bitcount_lor_two_pow (by omega) hfresh]
  | @step_play_bit p c r h hc7 hr6 hfresh ih =>
    obtain ⟨hsub, hboard, hmoves⟩ := ih
    have hu : (1 : Nat) <<< (c * (HEIGHT + 1) + r) = 2 ^ (c * 7 + r) := by
      rw [Nat.shiftLeft_eq, Nat.one_mul]
      rfl
    have hc7' : c < 7 := hc7
    have hr6' : r < 6 := hr6
    have hfresh' : p.mask.testBit (c * 7 + r) = false := hfresh
    have hb_cur : (p.play_bit (1 <<< (c * (HEIGHT + 1) + r))).current_position
        = p.current_position ^^^ p.mask := rfl
    have hb_mask : (p.play_bit (1 <<< (c * (HEIGHT + 1) + r))).mask
        = p.mask ||| 2 ^ (c * 7 + r) := by
      rw [Position.play_bit, hu]
    have hb_moves : (p.play_bit (1 <<< (c * (HEIGHT + 1) + r))).moves = p.moves + 1 := rfl
    refine ⟨?_, ?_, ?_⟩
    · intro i hi
      rw [hb_cur, Nat.testBit_xor] at hi
      rw [hb_mask, Nat.testBit_lor]
      cases hc : p.current_position.testBit i
      · rw [hc] at hi
        simp at hi
        simp [hi]
      · simp [hsub i hc]
    · intro i hi
      rw [hb_mask, Nat.testBit_lor] at hi
      simp only [Bool.or_eq_true] at hi
      rcases hi with h1 | h1
      · exact hboard i h1
      · rw [Nat.testBit_two_pow] at h1
        have : c * 7 + r = i := of_decide_eq_true h1
        rw [← this]
        exact board_bit_true hc7' hr6'
    · rw [hb_moves, hb_mask, hmoves,
        bitcount_lor_two_pow (by omega) hfresh']

theorem subset_and_compl49 {a b : Nat}
    (hsub : ∀ i, a.testBit i = true → b.testBit i = true) : a &&& compl49 b = 0 := by
  apply Nat.eq_of_testBit_eq
  intro i
  rw [Nat.testBit_land, Nat.zero_testBit]
  unfold compl49
  rw [Nat.testBit_xor, Nat.testBit_two_pow_sub_one, Nat.testBit_land,
    Nat.testBit_two_pow_sub_one]
  cases ha : a.testBit i
  · simp
  · rw [hsub i ha]
    by_cases h49 : i < 49 <;> simp [h49]

/-- C9: after every step of a sequence of legal `play` calls and `play_bit`
calls on single free column-cell bits, starting from the empty board, the
invariant `current_position AND NOT mask = 0` (own is a subset of occupied)
holds, and `moves` equals the number of set bits of `mask`. -/
theorem c9_invariant (p : Position) (h : ReachableB p) :
    p.current_position &&& compl49 p.mask = 0 ∧ p.moves = bitcount p.mask :=
  ⟨subset_and_compl49 (reachableB_inv h).1, (reachableB_inv h).2.2⟩

/-- Witness for C9 at a concrete board: play column 3, then `play_bit` the
free bottom cell of column 2. -/
theorem c9_invariant_witness :
    ((Position.init.play 3).play_bit
        (1 <<< (2 * (HEIGHT + 1) + 0))).current_position &&&
      compl49 ((Position.init.play 3).play_bit
        (1 <<< (2 * (HEIGHT + 1) + 0))).mask = 0 ∧
    ((Position.init.play 3).play_bit (1 <<< (2 * (HEIGHT + 1) + 0))).moves =
      bitcount ((Position.init.play 3).play_bit
        (1 <<< (2 * (HEIGHT + 1) + 0))).mask :=
  c9_invariant _
    (ReachableB.step_play_bit
      (ReachableB.step_play ReachableB.empty (by decide) (by decide))
      (by decide) (by decide) (by decide))

/-! ## Claim C10: transposition table default-entry behaviour -/

/-- C10: on a freshly constructed or reset `Table`, `get 0` does not report
absent: it returns the default entry (value 0, flagged as an upper bound)
although no `put` for key 0 was ever performed, and 0 is exactly the empty
board's canonical key; every nonzero key that was never stored reports
absent. -/
theorem c10_table_default (n : Nat) (t : Table) (k : Nat) (hk : k ≠ 0) :
    (Table.init n).get 0 = some ⟨0, 0, true⟩ ∧
    (Table.init n).get k = none ∧
    t.reset.get 0 = some ⟨0, 0, true⟩ ∧
    t.reset.get k = none ∧
    Position.init.key = 0 := by
  have hk0 : ¬ (0 = k) := fun h => hk h.symm
  refine ⟨?_, ?_, ?_, ?_, rfl⟩ <;>
    simp [Table.init, Table.reset, Table.get, Table.index, TableEntry.default, hk0]

/-- Witness for C10 at the solver's table size and the unstored key 5. -/
theorem c10_table_default_witness :
    (Table.init 8388593).get 0 = some ⟨0, 0, true⟩ ∧
    (Table.init 8388593).get 5 = none ∧
    (Table.init 8388593).reset.get 0 = some ⟨0, 0, true⟩ ∧
    (Table.init 8388593).reset.get 5 = none ∧
    Position.init.key = 0 :=
  c10_table_default 8388593 (Table.init 8388593) 5 (by decide)

/-! ## Claim C8: move sorter ordering -/

/-- C8 counterexample: with distinct moves 1, 2, 4, 8, 16 added with scores
3, 1, 4, 1, 5, the `get_next` sequence is `[16, 4, 1, 8, 2]`: among the two
moves with equal score 1, the move inserted later (8, fourth insertion) is
returned before the move inserted earlier (2, second insertion), refuting
the claimed stable order `[16, 4, 1, 2, 8]`. -/
theorem c8_sorter_counterexample :
    (sorter_test 1 2 4 8 16).drain = [16, 4, 1, 8, 2] ∧
    (sorter_test 1 2 4 8 16).drain ≠ [16, 4, 1, 2, 8] := by
  constructor
  · rfl
  · decide

set_option maxHeartbeats 2000000 in
/-- C8 amended: five distinct moves added with scores 3, 1, 4, 1, 5 in that
insertion order are returned by successive `get_next` calls in descending
score order, but among the two moves with equal score 1 the move inserted
later is returned before the move inserted earlier. -/
theorem c8_sorter_amended (m1 m2 m3 m4 m5 : Nat)
    (h12 : m1 ≠ m2) (h13 : m1 ≠ m3) (h14 : m1 ≠ m4) (h15 : m1 ≠ m5)
    (h23 : m2 ≠ m3) (h24 : m2 ≠ m4) (h25 : m2 ≠ m5)
    (h34 : m3 ≠ m4) (h35 : m3 ≠ m5) (h45 : m4 ≠ m5) :
    (sorter_test m1 m2 m3 m4 m5).drain = [m5, m3, m1, m4, m2] := rfl

/-- Witness for the amended C8 at moves 1, 2, 4, 8, 16. -/
theorem c8_sorter_amended_witness :
    (sorter_test 1 2 4 8 16).drain = [16, 4, 1, 8, 2] :=
  c8_sorter_amended 1 2 4 8 16 (by decide) (by decide) (by decide) (by decide)
    (by decide) (by decide) (by decide) (by decide) (by decide) (by decide)

/-! ## Claim C2: `is_winning` misses wins above the bottom row -/

/-- C2 (code bug): in `pos_stack` the current player may play column 0
(`can_play`), and dropping a stone there -- into the lowest free cell, as
computed by `play`'s own move arithmetic -- produces a four-in-a-row
`alignment`; yet `is_winning 0` returns the falsy bitmask 0, because the
code masks with `bottom_mask_col` (the bottom cell only) instead of the
whole column. -/
theorem c2_is_winning_code_bug :
    pos_stack.can_play 0 = true ∧
    alignment (pos_stack.current_position |||
      ((pos_stack.mask + bottom_mask_col 0) &&& column_mask 0)) = true ∧
    pos_stack.is_winning 0 = 0 := by
  refine ⟨?_, ?_, ?_⟩ <;> decide

/-! ## Claim C3: `play_seq` does not stop before a winning move -/

/-- C3 (code bug): on the sequence "1212121" the seventh token plays
column 0, a move that immediately wins (the stone completes a vertical
four-in-a-row, as witnessed by `alignment` on the mover's stones after the
move); the claim requires `play_seq` to stop before it and return 6, but
the code applies the move and returns 7, because the stop test `is_winning`
only detects wins into an empty column. -/
theorem c3_play_seq_code_bug :
    (play_seq Position.init "1212121".toList).1 = 7 ∧
    "1212121".toList.length = 7 ∧
    alignment ((play_seq Position.init "1212121".toList).2.current_position ^^^
      (play_seq Position.init "1212121".toList).2.mask) = true := by
  refine ⟨?_, ?_, ?_⟩ <;> decide

/-! ## Claims C5, C6, C7: `possible_non_losing` -/

theorem forced_lt_two_pow (p : Position) :
    p.possible &&& p.opponent_winning_position < 2 ^ 49 := by
  calc p.possible &&& p.opponent_winning_position
      ≤ p.possible := Nat.and_le_left
    _ ≤ board_mask := Nat.and_le_right
    _ < 2 ^ 49 := by decide

/-- C5 counterexample: in `pos_single_threat` the current player cannot win
this move and the opponent has exactly one immediately playable winning
cell, the bottom of column 3 (bit 21); the claim says
`possible_non_losing` returns exactly that cell, but the code returns the
empty mask (the opponent also wins at the cell directly above, so blocking
is futile and the code discards the move). -/
theorem c5_forced_block_counterexample :
    pos_single_threat.can_win_next = 0 ∧
    pos_single_threat.possible &&& pos_single_threat.opponent_winning_position
      = 2 ^ 21 ∧
    pos_single_threat.possible_non_losing = 0 ∧ (0 : Nat) ≠ 2 ^ 21 := by
  refine ⟨?_, ?_, ?_, ?_⟩ <;> decide

/-- C5 amended: when the current player cannot win this move and the
opponent has exactly one immediately playable winning cell `2 ^ k`,
`possible_non_losing` returns exactly that cell's bitmask unless the cell
directly above it (bit `k + 1`) is also an opponent winning cell, in which
case it returns the empty mask. -/
theorem c5_forced_block_amended (p : Position) (k : Nat)
    (hwin : p.can_win_next = 0)
    (hk : p.possible &&& p.opponent_winning_position = 2 ^ k) :
    p.possible_non_losing =
      if (p.opponent_winning_position).testBit (k + 1) then 0 else 2 ^ k := by
  have hk49 : k < 49 := by
    have h1 : (2 : Nat) ^ k < 2 ^ 49 := hk ▸ forced_lt_two_pow p
    exact (Nat.pow_lt_pow_iff_right (by norm_num)).mp h1
  have hne : (2 : Nat) ^ k ≠ 0 := Nat.pos_iff_ne_zero.mp (Nat.pos_pow_of_pos _ (by norm_num))
  simp only [Position.possible_non_losing]
  rw [hk, if_neg (fun hcon => hcon.2 (two_pow_land_pred k)), if_pos hne,
    two_pow_and_compl49 hk49]
  congr 1
  rw [Nat.testBit_shiftRight, Nat.add_comm]

/-- Witness for the amended C5 at `pos_single_threat` (`k = 21`; the cell
above, bit 22, is an opponent winning cell, so the result is empty). -/
theorem c5_forced_block_amended_witness :
    pos_single_threat.possible_non_losing =
      if pos_single_threat.opponent_winning_position.testBit 22 then 0
      else 2 ^ 21 :=
  c5_forced_block_amended pos_single_threat 21 (by decide) (by decide)

theorem more_than_one_bit_true_iff {n : Nat} (hn : n < 2 ^ 49) :
    more_than_one_bit n = true ↔ (n ≠ 0 ∧ n &&& (n - 1) ≠ 0) := by
  constructor
  · intro h
    unfold more_than_one_bit at h
    rw [List.any_eq_true] at h
    obtain ⟨i, _, h2⟩ := h
    rw [List.any_eq_true] at h2
    obtain ⟨j, _, h3⟩ := h2
    rw [Bool.and_eq_true, Bool.and_eq_true, bne_iff_ne] at h3
    obtain ⟨⟨hne, hbi⟩, hbj⟩ := h3
    exact ⟨ne_zero_of_testBit hbi, land_pred_ne_zero_of_two_bits hne hbi hbj⟩
  · rintro ⟨_, h1⟩
    obtain ⟨i, j, hne, hbi, hbj⟩ := two_bits_of_land_pred_ne_zero h1
    unfold more_than_one_bit
    rw [List.any_eq_true]
    refine ⟨i, List.mem_range.mpr (testBit_lt_of_lt hn hbi), ?_⟩
    rw [List.any_eq_true]
    refine ⟨j, List.mem_range.mpr (testBit_lt_of_lt hn hbj), ?_⟩
    rw [Bool.and_eq_true, Bool.and_eq_true, bne_iff_ne]
    exact ⟨⟨hne, hbi⟩, hbj⟩

/-- C6 counterexample: in `pos_under_threat` the current player cannot win
this move and the threat set `possible() & opponent_winning_position()` is
empty, so the claim says `possible_non_losing()` returns all of
`possible()`; the code excludes the playable cell below the opponent
winning cell `(2,2)` and returns a strictly smaller mask. -/
theorem c6_characterization_counterexample :
    pos_under_threat.can_win_next = 0 ∧
    pos_under_threat.possible &&& pos_under_threat.opponent_winning_position
      = 0 ∧
    pos_under_threat.possible_non_losing ≠ pos_under_threat.possible := by
  refine ⟨?_, ?_, ?_⟩ <;> decide

/-- C6 amended: for every position where the current player cannot win on
this move, `possible_non_losing()` equals the candidate mask (empty when
the threat set has more than one bit, the single threat cell when exactly
one, `possible()` otherwise) with exactly the bits of
`opponent_winning_position() >> 1` excluded -- not of `threats >> 1` as
claimed; in particular, when the threat set is empty it returns
`possible()` minus the cells directly below opponent winning cells. -/
theorem c6_characterization_amended (p : Position) (hwin : p.can_win_next = 0) :
    p.possible_non_losing =
      candidate_spec p &&& compl49 (p.opponent_winning_position >>> 1) := by
  have h49 := forced_lt_two_pow p
  simp only [Position.possible_non_losing, candidate_spec]
  by_cases hm : more_than_one_bit (p.possible &&& p.opponent_winning_position) = true
  · obtain ⟨h0, h1⟩ := (more_than_one_bit_true_iff h49).mp hm
    rw [if_pos ⟨h0, h1⟩, if_pos hm, Nat.zero_and]
  · rw [if_neg (fun hc => hm ((more_than_one_bit_true_iff h49).mpr hc)), if_neg hm]

/-- Witness for the amended C6 at `pos_under_threat`. -/
theorem c6_characterization_amended_witness :
    pos_under_threat.possible_non_losing =
      candidate_spec pos_under_threat &&&
        compl49 (pos_under_threat.opponent_winning_position >>> 1) :=
  c6_characterization_amended pos_under_threat (by decide)

/-- C7: when the current player cannot win this move and the opponent has
two or more immediately playable winning cells (two distinct bits of
`possible() & opponent_winning_position()`), `possible_non_losing()`
returns the empty bitmask and `negamax` with any window `alpha < beta`
returns the forced-loss score `-(WIDTH*HEIGHT - ply) // 2` (Python floor
division). -/
theorem c7_double_threat (p : Position) (i j : Nat) (hne : i ≠ j)
    (hwin : p.can_win_next = 0)
    (hi : (p.possible &&& p.opponent_winning_position).testBit i = true)
    (hj : (p.possible &&& p.opponent_winning_position).testBit j = true)
    (alpha beta : Int) (hab : alpha < beta) (f : Nat) (st : Solver) :
    p.possible_non_losing = 0 ∧
    (negamax (f + 1) p alpha beta st).1 =
      Int.fdiv (-((WIDTH * HEIGHT : Nat) - (p.moves : Int))) 2 := by
  have hpnl : p.possible_non_losing = 0 := by
    simp only [Position.possible_non_losing]
    rw [if_pos ⟨ne_zero_of_testBit hi, land_pred_ne_zero_of_two_bits hne hi hj⟩]
  refine ⟨hpnl, ?_⟩
  simp [negamax, hpnl]

/-- Witness for C7 at `pos_double_threat` (threat bits 0 and 28, window
`(0, 1)`, fuel 1, fresh solver state). -/
theorem c7_double_threat_witness :
    pos_double_threat.possible_non_losing = 0 ∧
    (negamax 1 pos_double_threat 0 1 Solver.start).1 =
      Int.fdiv (-((WIDTH * HEIGHT : Nat) - (pos_double_threat.moves : Int))) 2 :=
  c7_double_threat pos_double_threat 0 28 (by decide) (by decide) (by decide)
    (by decide) 0 1 (by decide) 0 Solver.start

/-! ## Base-128 digit encoding lemmas (claim C4) -/

theorem encode_lt {l : List Nat} (h : ∀ d ∈ l, d < 128) :
    encode l < 128 ^ l.length := by
  induction l with
  | nil => simp [encode]
  | cons d l ih =>
    have hd : d < 128 := h d (List.mem_cons_self d l)
    have hl : encode l < 128 ^ l.length := ih fun x hx => h x (List.mem_cons_of_mem d hx)
    rw [encode, List.length_cons, Nat.pow_succ]
    calc d + 128 * encode l < 128 * (encode l + 1) := by omega
      _ ≤ 128 * 128 ^ l.length := Nat.mul_le_mul_left _ (by omega)
      _ = 128 ^ l.length * 128 := Nat.mul_comm _ _

theorem encode_add (l1 : List Nat) : ∀ l2, l1.length = l2.length →
    encode l1 + encode l2 = encode (List.zipWith (· + ·) l1 l2) := by
  induction l1 with
  | nil =>
    intro l2 h
    cases l2
    · rfl
    · simp at h
  | cons d l ih =>
    intro l2 h
    cases l2 with
    | nil => simp at h
    | cons e l2 =>
      rw [List.zipWith_cons_cons, encode, encode, encode,
        ← ih l2 (by simpa using h)]
      ring

theorem encode_xor (l1 : List Nat) : ∀ l2, l1.length = l2.length →
    (∀ d ∈ l1, d < 128) → (∀ d ∈ l2, d < 128) →
    encode l1 ^^^ encode l2 = encode (List.zipWith (· ^^^ ·) l1 l2) := by
  induction l1 with
  | nil =>
    intro l2 h _ _
    cases l2
    · rfl
    · simp at h
  | cons d l ih =>
    intro l2 h h1 h2
    cases l2 with
    | nil => simp at h
    | cons e l2 =>
      have hd : d < 128 := h1 d (List.mem_cons_self _ _)
      have he : e < 128 := h2 e (List.mem_cons_self _ _)
      rw [List.zipWith_cons_cons, encode, encode, encode]
      have h7 : (128 : Nat) = 2 ^ 7 := by norm_num
      rw [h7]
      rw [split_xor 7 _ _ _ _ (by omega) (by omega),
        ih l2 (by simpa using h) (fun x hx => h1 x (List.mem_cons_of_mem d hx))
          (fun x hx => h2 x (List.mem_cons_of_mem e hx))]

theorem encode_inj (l1 : List Nat) : ∀ l2, l1.length = l2.length →
    (∀ d ∈ l1, d < 128) → (∀ d ∈ l2, d < 128) →
    encode l1 = encode l2 → l1 = l2 := by
  induction l1 with
  | nil =>
    intro l2 h _ _ _
    cases l2
    · rfl
    · simp at h
  | cons d l ih =>
    intro l2 h h1 h2 he
    cases l2 with
    | nil => simp at h
    | cons e l2 =>
      rw [encode, encode] at he
      have hd : d < 128 := h1 d (List.mem_cons_self _ _)
      have he' : e < 128 := h2 e (List.mem_cons_self _ _)
      have hde : d = e ∧ encode l = encode l2 := by
        constructor <;> omega
      rw [hde.1, ih l2 (by simpa using h)
        (fun x hx => h1 x (List.mem_cons_of_mem d hx))
        (fun x hx => h2 x (List.mem_cons_of_mem e hx)) hde.2]

theorem encode_digit : ∀ (i : Nat) (l : List Nat), (∀ d ∈ l, d < 128) →
    ∀ hi : i < l.length, (encode l >>> (i * 7)) % 128 = l[i] := by
  intro i
  induction i with
  | zero =>
    intro l h hi
    cases l with
    | nil => simp at hi
    | cons d l =>
      have hd : d < 128 := h d (List.mem_cons_self _ _)
      simp only [Nat.zero_mul, Nat.shiftRight_zero, encode]
      rw [Nat.add_mul_mod_self_left, Nat.mod_eq_of_lt hd]
      rfl
  | succ i ih =>
    intro l h hi
    cases l with
    | nil => simp at hi
    | cons d l =>
      have hd : d < 128 := h d (List.mem_cons_self _ _)
      have hlen : i < l.length := by
        rw [List.length_cons] at hi
        omega
      have h1 : encode (d :: l) >>> ((i + 1) * 7) = encode l >>> (i * 7) := by
        rw [Nat.shiftRight_eq_div_pow, Nat.shiftRight_eq_div_pow, encode]
        have h2 : (i + 1) * 7 = 7 + i * 7 := by ring
        rw [h2, Nat.pow_add, ← Nat.div_div_eq_div_mul]
        congr 1
        have h128 : (128 : Nat) = 2 ^ 7 := by norm_num
        rw [← h128, Nat.add_mul_div_left _ _ (by norm_num : (0:Nat) < 128),
          Nat.div_eq_of_lt hd, Nat.zero_add]
      rw [h1, ih l (fun x hx => h x (List.mem_cons_of_mem d hx)) hlen]
      rfl

theorem encode_set_add : ∀ (l : List Nat) (i δ : Nat) (hi : i < l.length),
    encode (l.set i (l[i] + δ)) = encode l + 128 ^ i * δ := by
  intro l
  induction l with
  | nil => intro i δ hi; simp at hi
  | cons d l ih =>
    intro i δ hi
    cases i with
    | zero =>
      rw [List.set_cons_zero, encode, encode]
      simp
      omega
    | succ i =>
      have hlen : i < l.length := by
        rw [List.length_cons] at hi
        omega
      rw [List.set_cons_succ, encode, encode]
      have hgi : (d :: l)[i + 1] = l[i] := rfl
      rw [hgi, ih i δ hlen, Nat.pow_succ]
      ring

theorem sum_set_add : ∀ (l : List Nat) (i δ : Nat) (hi : i < l.length),
    (l.set i (l[i] + δ)).sum = l.sum + δ := by
  intro l
  induction l with
  | nil => intro i δ hi; simp at hi
  | cons d l ih =>
    intro i δ hi
    cases i with
    | zero =>
      rw [List.set_cons_zero, List.sum_cons, List.sum_cons]
      have : (d :: l)[0] = d := rfl
      rw [this]
      omega
    | succ i =>
      have hlen : i < l.length := by
        rw [List.length_cons] at hi
        omega
      rw [List.set_cons_succ, List.sum_cons, List.sum_cons]
      have hgi : (d :: l)[i + 1] = l[i] := rfl
      rw [hgi, ih i δ hlen]
      omega

theorem set_getElem_self : ∀ (l : List Nat) (i : Nat) (hi : i < l.length),
    l.set i l[i] = l := by
  intro l
  induction l with
  | nil => intro i hi; simp at hi
  | cons d l ih =>
    intro i hi
    cases i with
    | zero => rfl
    | succ i =>
      have hlen : i < l.length := by
        rw [List.length_cons] at hi
        omega
      rw [List.set_cons_succ]
      have hgi : (d :: l)[i + 1] = l[i] := rfl
      rw [hgi, ih i hlen]

theorem zipWith_of_maps (f g : Nat × Nat → Nat) (op : Nat → Nat → Nat) :
    ∀ l : List (Nat × Nat),
      List.zipWith op (l.map f) (l.map g) = l.map fun x => op (f x) (g x) := by
  intro l
  induction l with
  | nil => rfl
  | cons x l ih => simp [ih]

theorem col_digit_inj {h1 c1 h2 c2 : Nat} (hh1 : h1 ≤ 6) (hc1 : c1 < 2 ^ h1)
    (hh2 : h2 ≤ 6) (hc2 : c2 < 2 ^ h2)
    (he : c1 + (2 ^ h1 - 1) = c2 + (2 ^ h2 - 1)) : h1 = h2 ∧ c1 = c2 := by
  have hp1 : 0 < (2 : Nat) ^ h1 := Nat.pos_pow_of_pos _ (by norm_num)
  have hp2 : 0 < (2 : Nat) ^ h2 := Nat.pos_pow_of_pos _ (by norm_num)
  have heq : h1 = h2 := by
    rcases Nat.lt_trichotomy h1 h2 with hlt | heq | hgt
    · exfalso
      have h3 : (2 : Nat) ^ (h1 + 1) ≤ 2 ^ h2 :=
        Nat.pow_le_pow_right (by norm_num) (by omega)
      have h4 : (2 : Nat) ^ (h1 + 1) = 2 * 2 ^ h1 := by
        rw [Nat.pow_succ]
        ring
      omega
    · exact heq
    · exfalso
      have h3 : (2 : Nat) ^ (h2 + 1) ≤ 2 ^ h1 :=
        Nat.pow_le_pow_right (by norm_num) (by omega)
      have h4 : (2 : Nat) ^ (h2 + 1) = 2 * 2 ^ h2 := by
        rw [Nat.pow_succ]
        ring
      omega
  subst heq
  exact ⟨rfl, by omega⟩

theorem cols_eq_of_sums : ∀ c1 c2 : List (Nat × Nat), c1.length = c2.length →
    (∀ x ∈ c1, x.1 ≤ 6 ∧ x.2 < 2 ^ x.1) → (∀ x ∈ c2, x.1 ≤ 6 ∧ x.2 < 2 ^ x.1) →
    (c1.map fun x => x.2 + (2 ^ x.1 - 1)) = (c2.map fun x => x.2 + (2 ^ x.1 - 1)) →
    c1 = c2 := by
  intro c1
  induction c1 with
  | nil =>
    intro c2 h _ _ _
    cases c2
    · rfl
    · simp at h
  | cons x c1 ih =>
    intro c2 h h1 h2 hm
    cases c2 with
    | nil => simp at h
    | cons y c2 =>
      rw [List.map_cons, List.map_cons, List.cons.injEq] at hm
      have hx := h1 x (List.mem_cons_self _ _)
      have hy := h2 y (List.mem_cons_self _ _)
      obtain ⟨hh, hc⟩ := col_digit_inj hx.1 hx.2 hy.1 hy.2 hm.1
      have hxy : x = y := Prod.ext hh hc
      rw [hxy, ih c2 (by simpa using h)
        (fun z hz => h1 z (List.mem_cons_of_mem x hz))
        (fun z hz => h2 z (List.mem_cons_of_mem y hz)) hm.2]

/-- Every position reachable by legal `play` calls is represented by seven
columns, each a stack height `≤ 6` together with the current player's
stones in that stack encoded in its low bits. -/
theorem reachable_wf {p : Position} (h : Reachable p) :
    ∃ cols : List (Nat × Nat), cols.length = 7 ∧
      (∀ x ∈ cols, x.1 ≤ 6 ∧ x.2 < 2 ^ x.1) ∧
      p.mask = encode (cols.map fun x => 2 ^ x.1 - 1) ∧
      p.current_position = encode (cols.map Prod.snd) ∧
      p.moves = (cols.map Prod.fst).sum := by
  induction h with
  | empty =>
    refine ⟨List.replicate 7 (0, 0), rfl, ?_, rfl, rfl, rfl⟩
    intro x hx
    rw [List.eq_of_mem_replicate hx]
    exact ⟨by norm_num, by norm_num⟩
  | @step p col h hcol hcan ih =>
    obtain ⟨cols, hlen, hok, hmask, hcur, hmoves⟩ := ih
    have hcol7 : col < 7 := hcol
    have hcollen : col < cols.length := by omega
    have hmemcol : cols[col] ∈ cols := List.getElem_mem hcollen
    obtain ⟨hh6, hc2h⟩ := hok _ hmemcol
    have hdigbound : ∀ d ∈ cols.map (fun x => 2 ^ x.1 - 1), d < 128 := by
      intro d hd
      rw [List.mem_map] at hd
      obtain ⟨x, hx, rfl⟩ := hd
      have := (hok x hx).1
      have h2 : (2 : Nat) ^ x.1 ≤ 2 ^ 6 := Nat.pow_le_pow_right (by norm_num) this
      omega
    have hsndbound : ∀ d ∈ cols.map Prod.snd, d < 128 := by
      intro d hd
      rw [List.mem_map] at hd
      obtain ⟨x, hx, rfl⟩ := hd
      have h1 := (hok x hx).2
      have h2 : (2 : Nat) ^ x.1 ≤ 2 ^ 6 := Nat.pow_le_pow_right (by norm_num) (hok x hx).1
      omega
    have hdig : (p.mask >>> (col * 7)) % 128 = 2 ^ cols[col].1 - 1 := by
      rw [hmask, encode_digit col _ hdigbound (by simpa [List.length_map] using hcollen)]
      exact List.getElem_map _
    have hb5 : p.mask.testBit (col * 7 + 5) = false := can_play_bit5 hcan
    have hh5 : cols[col].1 ≤ 5 := by
      by_contra hgt
      have h6 : cols[col].1 = 6 := by omega
      have ht := testBit_shifted_digit p.mask (col * 7) 5 (by norm_num)
      rw [hdig, h6, hb5] at ht
      exact absurd ht (by decide)
    have hb6 : p.mask.testBit (col * 7 + 6) = false := by
      have ht := testBit_shifted_digit p.mask (col * 7) 6 (by norm_num)
      rw [hdig] at ht
      rw [← ht, Nat.testBit_two_pow_sub_one]
      simp
      omega
    have hppos : 0 < (2 : Nat) ^ cols[col].1 := Nat.pos_pow_of_pos _ (by norm_num)
    have hmove2 : (p.mask + bottom_mask_col col) &&& column_mask col
        = 2 ^ (col * 7 + cols[col].1) := by
      rw [play_move_eq p.mask col hb5 hb6, hdig]
      have hsucc : (2 : Nat) ^ cols[col].1 - 1 + 1 = 2 ^ cols[col].1 := by omega
      rw [hsucc, ← Nat.pow_add]
    have hfresh : p.mask.testBit (col * 7 + cols[col].1) = false := by
      have ht := testBit_shifted_digit p.mask (col * 7) cols[col].1 (by omega)
      rw [hdig] at ht
      rw [← ht, Nat.testBit_two_pow_sub_one]
      simp
    have hmask' : (p.play col).mask = p.mask + 2 ^ (col * 7 + cols[col].1) := by
      show p.mask ||| _ = _
      rw [hmove2, lor_two_pow_of_testBit_false hfresh]
    refine ⟨(cols.map fun x => (x.1, x.2 ^^^ (2 ^ x.1 - 1))).set col
        (cols[col].1 + 1, cols[col].2 ^^^ (2 ^ cols[col].1 - 1)), ?_, ?_, ?_, ?_, ?_⟩
    · rw [List.length_set, List.length_map, hlen]
    · intro x hx
      rw [List.mem_iff_getElem] at hx
      obtain ⟨n, hn, hval⟩ := hx
      rw [List.length_set, List.length_map] at hn
      by_cases hnc : col = n
      · subst hnc
        rw [List.getElem_set_self] at hval
        rw [← hval]
        show cols[col].1 + 1 ≤ 6 ∧
          cols[col].2 ^^^ (2 ^ cols[col].1 - 1) < 2 ^ (cols[col].1 + 1)
        refine ⟨by omega, ?_⟩
        have hx1 : cols[col].2 ^^^ (2 ^ cols[col].1 - 1) < 2 ^ cols[col].1 :=
          Nat.xor_lt_two_pow hc2h (by omega)
        have h2 : (2 : Nat) ^ cols[col].1 ≤ 2 ^ (cols[col].1 + 1) :=
          Nat.pow_le_pow_right (by norm_num) (by omega)
        exact lt_of_lt_of_le hx1 h2
      · rw [List.getElem_set_ne hnc, List.getElem_map] at hval
        obtain ⟨hy6, hy2⟩ := hok cols[n] (List.getElem_mem (by omega))
        rw [← hval]
        show cols[n].1 ≤ 6 ∧ cols[n].2 ^^^ (2 ^ cols[n].1 - 1) < 2 ^ cols[n].1
        have hq : (2 : Nat) ^ cols[n].1 - 1 < 2 ^ cols[n].1 := by
          have := Nat.pos_pow_of_pos (m := cols[n].1) (by norm_num : 0 < 2)
          omega
        exact ⟨hy6, Nat.xor_lt_two_pow hy2 hq⟩
    · have hmapdig : ((cols.map fun x => (x.1, x.2 ^^^ (2 ^ x.1 - 1))).set col
          (cols[col].1 + 1, cols[col].2 ^^^ (2 ^ cols[col].1 - 1))).map
            (fun x => 2 ^ x.1 - 1)
          = (cols.map fun x => 2 ^ x.1 - 1).set col (2 ^ (cols[col].1 + 1) - 1) := by
        rw [List.map_set, List.map_map]
        rfl
      rw [hmapdig]
      have hlend : col < (cols.map fun x => 2 ^ x.1 - 1).length := by
        simpa [List.length_map] using hcollen
      have hdcol : (cols.map fun x => 2 ^ x.1 - 1)[col] = 2 ^ cols[col].1 - 1 :=
        List.getElem_map _
      have hv : (2 : Nat) ^ (cols[col].1 + 1) - 1
          = (cols.map fun x => 2 ^ x.1 - 1)[col] + 2 ^ cols[col].1 := by
        rw [hdcol]
        have hps : (2 : Nat) ^ (cols[col].1 + 1) = 2 ^ cols[col].1 * 2 :=
          Nat.pow_succ 2 cols[col].1
        omega
      rw [hv, encode_set_add _ col _ (by simpa [List.length_map] using hcollen),
        ← hmask, hmask']
      congr 1
      have h128 : (128 : Nat) = 2 ^ 7 := by norm_num
      rw [h128, ← Nat.pow_mul, ← Nat.pow_add]
      congr 1
      ring
    · have hmapsnd : ((cols.map fun x => (x.1, x.2 ^^^ (2 ^ x.1 - 1))).set col
          (cols[col].1 + 1, cols[col].2 ^^^ (2 ^ cols[col].1 - 1))).map Prod.snd
          = cols.map fun x => x.2 ^^^ (2 ^ x.1 - 1) := by
        rw [List.map_set, List.map_map]
        have hlens : col < (cols.map fun x => x.2 ^^^ (2 ^ x.1 - 1)).length := by
          simpa [List.length_map] using hcollen
        have hval : (cols.map fun x => x.2 ^^^ (2 ^ x.1 - 1))[col]
            = cols[col].2 ^^^ (2 ^ cols[col].1 - 1) := List.getElem_map _
        calc (List.map (Prod.snd ∘ fun x => (x.1, x.2 ^^^ (2 ^ x.1 - 1))) cols).set col
              (cols[col].2 ^^^ (2 ^ cols[col].1 - 1))
            = (cols.map fun x => x.2 ^^^ (2 ^ x.1 - 1)).set col
              (cols[col].2 ^^^ (2 ^ cols[col].1 - 1)) := rfl
          _ = cols.map fun x => x.2 ^^^ (2 ^ x.1 - 1) := by
              rw [← hval, set_getElem_self _ _ (by simpa [List.length_map] using hcollen)]
      rw [hmapsnd]
      show p.current_position ^^^ p.mask = _
      rw [hcur, hmask, encode_xor _ _ (by rw [List.length_map, List.length_map])
        hsndbound hdigbound, zipWith_of_maps]
    · have hmapfst : ((cols.map fun x => (x.1, x.2 ^^^ (2 ^ x.1 - 1))).set col
          (cols[col].1 + 1, cols[col].2 ^^^ (2 ^ cols[col].1 - 1))).map Prod.fst
          = (cols.map Prod.fst).set col (cols[col].1 + 1) := by
        rw [List.map_set, List.map_map]
        rfl
      rw [hmapfst]
      have hlenf : col < (cols.map Prod.fst).length := by
        simpa [List.length_map] using hcollen
      have hfcol : (cols.map Prod.fst)[col] = cols[col].1 := List.getElem_map _
      have hv : cols[col].1 + 1 = (cols.map Prod.fst)[col] + 1 := by rw [hfcol]
      rw [hv, sum_set_add _ col 1 (by simpa [List.length_map] using hcollen)]
      show p.moves + 1 = _
      rw [hmoves]

/-- C4: the canonical key `current_position + mask` (integer addition) is
injective on positions reachable from the empty board by legal play: equal
keys imply equal positions, including whose turn it is (the full `moves`
counter agrees). -/
theorem c4_key_injective (p q : Position) (hp : Reachable p) (hq : Reachable q)
    (hkey : p.key = q.key) : p = q := by
  obtain ⟨c1, hlen1, hok1, hm1, hc1, hv1⟩ := reachable_wf hp
  obtain ⟨c2, hlen2, hok2, hm2, hc2, hv2⟩ := reachable_wf hq
  have hkey1 : p.key = encode (c1.map fun x => x.2 + (2 ^ x.1 - 1)) := by
    rw [Position.key, hc1, hm1,
      encode_add _ _ (by rw [List.length_map, List.length_map]), zipWith_of_maps]
  have hkey2 : q.key = encode (c2.map fun x => x.2 + (2 ^ x.1 - 1)) := by
    rw [Position.key, hc2, hm2,
      encode_add _ _ (by rw [List.length_map, List.length_map]), zipWith_of_maps]
  have hsumbound : ∀ c : List (Nat × Nat), (∀ x ∈ c, x.1 ≤ 6 ∧ x.2 < 2 ^ x.1) →
      ∀ d ∈ c.map fun x => x.2 + (2 ^ x.1 - 1), d < 128 := by
    intro c hokc d hd
    rw [List.mem_map] at hd
    obtain ⟨x, hx, rfl⟩ := hd
    obtain ⟨hx1, hx2⟩ := hokc x hx
    have h2 : (2 : Nat) ^ x.1 ≤ 2 ^ 6 := Nat.pow_le_pow_right (by norm_num) hx1
    omega
  have hs : (c1.map fun x => x.2 + (2 ^ x.1 - 1))
      = (c2.map fun x => x.2 + (2 ^ x.1 - 1)) := by
    apply encode_inj _ _ (by rw [List.length_map, List.length_map, hlen1, hlen2])
      (hsumbound c1 hok1) (hsumbound c2 hok2)
    rw [← hkey1, ← hkey2, hkey]
  have hc12 : c1 = c2 := cols_eq_of_sums c1 c2 (by omega) hok1 hok2 hs
  have h1 : p.mask = q.mask := by rw [hm1, hm2, hc12]
  have h2 : p.current_position = q.current_position := by rw [hc1, hc2, hc12]
  have h3 : p.moves = q.moves := by rw [hv1, hv2, hc12]
  calc p = (⟨p.current_position, p.mask, p.moves⟩ : Position) := rfl
    _ = (⟨q.current_position, q.mask, q.moves⟩ : Position) := by rw [h1, h2, h3]
    _ = q := rfl

/-- Witness for C4: the move orders `[0,1,2,3]` and `[2,3,0,1]` transpose
into the same position; applying the theorem to both derivations (keys are
equal by computation) identifies them. -/
theorem c4_key_injective_witness :
    apply_moves [0, 1, 2, 3] = apply_moves [2, 3, 0, 1] :=
  c4_key_injective _ _
    (Reachable.step (Reachable.step (Reachable.step (Reachable.step
      Reachable.empty (by decide) (by decide)) (by decide) (by decide))
      (by decide) (by decide)) (by decide) (by decide))
    (Reachable.step (Reachable.step (Reachable.step (Reachable.step
      Reachable.empty (by decide) (by decide)) (by decide) (by decide))
      (by decide) (by decide)) (by decide) (by decide))
    (by decide)

end C4
